import Mathlib

/-!
Verification of the kq_fx exchange-rate cache engine (src/src/lib.rs).

The embedding below translates the cache's data model and operations into
Lean.  Calendar dates travel through the code as `i32` PostgreSQL epoch day
counts (`Date::to_pg_epoch_days`) on which only comparisons are performed,
so they are modelled as `Int`.  Rates are `f64` values that the engine never
computes with — it only stores, selects and returns them, plus the literal
`1.0` returned for identity pairs — so they are modelled by an integer
carrier in which `1` stands for `1.0`.  Abnormal termination (a Rust
`panic!` from `.unwrap()` or a PostgreSQL `error!`, both of which abort the
current call without producing a value) is modelled by an `Option` layer or
an `Except` error branch, as noted at each definition.
-/

namespace KqFx

/-- Stored dates: `type StoreDate = i32` (src/src/lib.rs:106), holding
`Date::to_pg_epoch_days` day counts.  Only order comparisons are performed. -/
abbrev StoreDate := Int

/-- Rate carrier standing for `f64` (no arithmetic is ever performed on
rates; `1` stands for the literal `1.0`). -/
abbrev Rate := Int

/-- `type StoreDateRatePair = (StoreDate, f64)` (src/src/lib.rs:108). -/
abbrev StoreDateRatePair := Int × Int

/-- `type FromToIdPair = (i64, i64)` (src/src/lib.rs:107). -/
abbrev FromToIdPair := Int × Int

/-- The loop of Rust core `slice::binary_search_by`, specialised to the
comparator `|&(cache_date, _)| cache_date.cmp(&date)` used at
src/src/lib.rs:423 and to `dates.binary_search(&date)` at
src/src/lib.rs:493: while `size > 1`, probe `mid = base + size / 2`; keep
`base` when the probed element is greater than the target, else advance
`base` to `mid`; shrink `size` by `size / 2`. -/
def bsLoop (ds : List Int) (t : Int) (base size : Nat) : Nat :=
  if size ≤ 1 then base
  else if t < ds.getD (base + size / 2) 0 then bsLoop ds t base (size - size / 2)
  else bsLoop ds t (base + size / 2) (size - size / 2)
termination_by size
decreasing_by
  all_goals omega

/-- Rust core `slice::binary_search_by` over a list of dates: `Except.ok i`
means the element at `i` equals the target, `Except.error i` is the
insertion point that keeps the (sorted) list sorted. -/
def binary_search (ds : List Int) (t : Int) : Except Nat Nat :=
  if ds.length = 0 then Except.error 0
  else
    let b := bsLoop ds t 0 ds.length
    if ds.getD b 0 = t then Except.ok b
    else if ds.getD b 0 < t then Except.error (b + 1)
    else Except.error b

/-- Number of entries not exceeding `t` (specification device used to state
what the binary search computes on a sorted list). -/
def countLe (ds : List Int) (t : Int) : Nat :=
  (ds.filter (fun x => decide (x ≤ t))).length

/-- Number of entries strictly below `t`. -/
def countLt (ds : List Int) (t : Int) : Nat :=
  (ds.filter (fun x => decide (x < t))).length

theorem countLe_le_length (ds : List Int) (t : Int) : countLe ds t ≤ ds.length :=
  List.length_filter_le _ _

theorem countLt_le_length (ds : List Int) (t : Int) : countLt ds t ≤ ds.length :=
  List.length_filter_le _ _

theorem countLe_nil (t : Int) : countLe [] t = 0 := rfl

theorem countLe_cons (x : Int) (l : List Int) (t : Int) :
    countLe (x :: l) t = (if x ≤ t then 1 else 0) + countLe l t := by
  by_cases h : x ≤ t <;> simp [countLe, List.filter_cons, h] <;> omega

theorem countLt_cons (x : Int) (l : List Int) (t : Int) :
    countLt (x :: l) t = (if x < t then 1 else 0) + countLt l t := by
  by_cases h : x < t <;> simp [countLt, List.filter_cons, h] <;> omega

theorem countLe_eq_zero_of_forall_gt {ds : List Int} {t : Int}
    (h : ∀ x ∈ ds, t < x) : countLe ds t = 0 := by
  unfold countLe
  rw [List.filter_eq_nil_iff.mpr]
  · rfl
  · intro a ha
    simp only [decide_eq_true_eq]
    exact fun hle => absurd (h a ha) (not_lt.mpr hle)

theorem countLt_eq_zero_of_forall_gt {ds : List Int} {t : Int}
    (h : ∀ x ∈ ds, t < x) : countLt ds t = 0 := by
  unfold countLt
  rw [List.filter_eq_nil_iff.mpr]
  · rfl
  · intro a ha
    simp only [decide_eq_true_eq]
    exact fun hlt => absurd (h a ha) (not_lt.mpr (le_of_lt hlt))

/-- On a strictly date-ascending list, an entry is `≤ t` exactly when its
index lies below `countLe`. -/
theorem getD_le_iff_lt_countLe {ds : List Int} {t : Int}
    (hs : ds.Pairwise (fun a b => a < b)) :
    ∀ j, j < ds.length → (ds.getD j 0 ≤ t ↔ j < countLe ds t) := by
  induction ds with
  | nil => intro j hj; simp at hj
  | cons x l ih =>
    have hx := (List.pairwise_cons.mp hs).1
    have hl := (List.pairwise_cons.mp hs).2
    intro j hj
    by_cases hxt : x ≤ t
    · rw [countLe_cons, if_pos hxt]
      cases j with
      | zero => simpa using hxt
      | succ k =>
        have hk : k < l.length := by simpa using hj
        have := ih hl k hk
        simpa [List.getD_cons_succ, Nat.add_comm 1 (countLe l t)] using this
    · have hgt : t < x := lt_of_not_le hxt
      have hall : ∀ y ∈ x :: l, t < y := by
        intro y hy
        rcases List.mem_cons.mp hy with rfl | hy
        · exact hgt
        · exact lt_trans hgt (hx y hy)
      rw [countLe_eq_zero_of_forall_gt hall]
      simp only [Nat.not_lt_zero, iff_false, not_le]
      cases j with
      | zero => simpa using hgt
      | succ k =>
        have hk : k < l.length := by simpa using hj
        have hmem : l.getD k 0 ∈ l := by
          rw [List.getD_eq_getElem _ _ hk]
          exact List.getElem_mem hk
        simpa [List.getD_cons_succ] using hall _ (List.mem_cons_of_mem x hmem)

/-- On a strictly date-ascending list, an entry is `< t` exactly when its
index lies below `countLt`. -/
theorem getD_lt_iff_lt_countLt {ds : List Int} {t : Int}
    (hs : ds.Pairwise (fun a b => a < b)) :
    ∀ j, j < ds.length → (ds.getD j 0 < t ↔ j < countLt ds t) := by
  induction ds with
  | nil => intro j hj; simp at hj
  | cons x l ih =>
    have hx := (List.pairwise_cons.mp hs).1
    have hl := (List.pairwise_cons.mp hs).2
    intro j hj
    by_cases hxt : x < t
    · rw [countLt_cons, if_pos hxt]
      cases j with
      | zero => simpa using hxt
      | succ k =>
        have hk : k < l.length := by simpa using hj
        have := ih hl k hk
        simpa [List.getD_cons_succ, Nat.add_comm 1 (countLt l t)] using this
    · have hge : t ≤ x := le_of_not_lt hxt
      have hall : ∀ y ∈ x :: l, ¬ y < t := by
        intro y hy
        rcases List.mem_cons.mp hy with rfl | hy
        · exact not_lt.mpr hge
        · exact not_lt.mpr (le_of_lt (lt_of_le_of_lt hge (hx y hy)))
      have hz : countLt (x :: l) t = 0 := by
        unfold countLt
        rw [List.filter_eq_nil_iff.mpr]
        · rfl
        · intro a ha
          simp only [decide_eq_true_eq]
          exact hall a ha
      rw [hz]
      simp only [Nat.not_lt_zero, iff_false]
      cases j with
      | zero => simpa using hall x (List.mem_cons_self x l)
      | succ k =>
        have hk : k < l.length := by simpa using hj
        have hmem : l.getD k 0 ∈ l := by
          rw [List.getD_eq_getElem _ _ hk]
          exact List.getElem_mem hk
        simpa [List.getD_cons_succ] using hall _ (List.mem_cons_of_mem x hmem)

/-- Entries of a strictly ascending list are strictly increasing in the index. -/
theorem sorted_getD_lt {ds : List Int} (hs : ds.Pairwise (fun a b => a < b))
    {i j : Nat} (hij : i < j) (hj : j < ds.length) :
    ds.getD i 0 < ds.getD j 0 := by
  have hi : i < ds.length := lt_trans hij hj
  rw [List.getD_eq_getElem _ _ hi, List.getD_eq_getElem _ _ hj]
  exact List.pairwise_iff_getElem.mp hs i j hi hj hij

/-- Invariant of the binary-search loop: starting from a window
`[base, base+size)` whose left context is entirely below the target and
whose right context is entirely above it, the loop ends on an in-bounds
index with everything strictly left of it below the target and everything
strictly right of it above the target. -/
theorem bsLoop_spec {ds : List Int} {t : Int}
    (hs : ds.Pairwise (fun a b => a < b)) :
    ∀ size base, 1 ≤ size → base + size ≤ ds.length →
      (∀ j, j < base → ds.getD j 0 < t) →
      (∀ j, base + size ≤ j → j < ds.length → t < ds.getD j 0) →
      base ≤ bsLoop ds t base size ∧ bsLoop ds t base size < ds.length ∧
      (∀ j, j < bsLoop ds t base size → ds.getD j 0 < t) ∧
      (∀ j, bsLoop ds t base size < j → j < ds.length → t < ds.getD j 0) := by
  intro size
  induction size using Nat.strong_induction_on with
  | _ size ih =>
    intro base h1 h2 hlo hhi
    rw [bsLoop]
    by_cases hsz : size ≤ 1
    · rw [if_pos hsz]
      refine ⟨le_refl _, by omega, hlo, ?_⟩
      intro j hj hjlen
      exact hhi j (by omega) hjlen
    · rw [if_neg hsz]
      have hmidlt : base + size / 2 < ds.length := by omega
      by_cases hcmp : t < ds.getD (base + size / 2) 0
      · rw [if_pos hcmp]
        apply ih (size - size / 2) (by omega) base (by omega) (by omega) hlo
        intro j hj hjlen
        by_cases hjb : base + size ≤ j
        · exact hhi j hjb hjlen
        · have hmidj : base + size / 2 ≤ j := by omega
          rcases eq_or_lt_of_le hmidj with heq | hlt
          · rw [← heq]; exact hcmp
          · exact lt_trans hcmp (sorted_getD_lt hs hlt hjlen)
      · rw [if_neg hcmp]
        have hlo2 : ∀ j, j < base + size / 2 → ds.getD j 0 < t := by
          intro j hj
          by_cases hjb : j < base
          · exact hlo j hjb
          · have hjlt : j < base + size / 2 := hj
            exact lt_of_lt_of_le (sorted_getD_lt hs hjlt hmidlt) (le_of_not_lt hcmp)
        have hhi2 : ∀ j, base + size / 2 + (size - size / 2) ≤ j → j < ds.length →
            t < ds.getD j 0 := by
          intro j hj hjlen
          exact hhi j (by omega) hjlen
        obtain ⟨ha, hb, hc, hd⟩ :=
          ih (size - size / 2) (by omega) (base + size / 2) (by omega) (by omega) hlo2 hhi2
        exact ⟨by omega, hb, hc, hd⟩

/-- `countLe` is `b` when everything before `b` is `≤ t` and the entry at
`b` is not. -/
theorem countLe_eq_of_window {ds : List Int} {t : Int} {b : Nat}
    (hs : ds.Pairwise (fun a b => a < b)) (hb : b < ds.length)
    (hlo : ∀ j, j < b → ds.getD j 0 ≤ t) (hbt : ¬ ds.getD b 0 ≤ t) :
    countLe ds t = b := by
  have hub : ¬ (b < countLe ds t) :=
    fun h => hbt ((getD_le_iff_lt_countLe hs b hb).mpr h)
  have hlb : b ≤ countLe ds t := by
    by_contra hc
    push_neg at hc
    have := (getD_le_iff_lt_countLe hs _ (lt_trans hc hb)).mp (hlo _ hc)
    omega
  omega

/-- `countLt` is `b` when everything before `b` is `< t` and the entry at
`b` is not. -/
theorem countLt_eq_of_window {ds : List Int} {t : Int} {b : Nat}
    (hs : ds.Pairwise (fun a b => a < b)) (hb : b < ds.length)
    (hlo : ∀ j, j < b → ds.getD j 0 < t) (hbt : ¬ ds.getD b 0 < t) :
    countLt ds t = b := by
  have hub : ¬ (b < countLt ds t) :=
    fun h => hbt ((getD_lt_iff_lt_countLt hs b hb).mpr h)
  have hlb : b ≤ countLt ds t := by
    by_contra hc
    push_neg at hc
    have := (getD_lt_iff_lt_countLt hs _ (lt_trans hc hb)).mp (hlo _ hc)
    omega
  omega

/-- `countLe` is `b + 1` when everything up to `b` is `≤ t` and everything
after `b` is not. -/
theorem countLe_eq_succ_of_window {ds : List Int} {t : Int} {b : Nat}
    (hs : ds.Pairwise (fun a b => a < b)) (hb : b < ds.length)
    (hlo : ∀ j, j ≤ b → ds.getD j 0 ≤ t)
    (hhi : ∀ j, b < j → j < ds.length → ¬ ds.getD j 0 ≤ t) :
    countLe ds t = b + 1 := by
  have hlb : b < countLe ds t :=
    (getD_le_iff_lt_countLe hs b hb).mp (hlo b (le_refl _))
  have hub : countLe ds t ≤ b + 1 := by
    by_contra hc
    push_neg at hc
    have hlen : b + 1 < ds.length := lt_of_lt_of_le hc (countLe_le_length ds t)
    exact hhi (b + 1) (by omega) hlen ((getD_le_iff_lt_countLe hs _ hlen).mpr hc)
  omega

/-- `countLt` is `b + 1` when everything up to `b` is `< t` and everything
after `b` is not. -/
theorem countLt_eq_succ_of_window {ds : List Int} {t : Int} {b : Nat}
    (hs : ds.Pairwise (fun a b => a < b)) (hb : b < ds.length)
    (hlo : ∀ j, j ≤ b → ds.getD j 0 < t)
    (hhi : ∀ j, b < j → j < ds.length → ¬ ds.getD j 0 < t) :
    countLt ds t = b + 1 := by
  have hlb : b < countLt ds t :=
    (getD_lt_iff_lt_countLt hs b hb).mp (hlo b (le_refl _))
  have hub : countLt ds t ≤ b + 1 := by
    by_contra hc
    push_neg at hc
    have hlen : b + 1 < ds.length := lt_of_lt_of_le hc (countLt_le_length ds t)
    exact hhi (b + 1) (by omega) hlen ((getD_lt_iff_lt_countLt hs _ hlen).mpr hc)
  omega

/-- What `binary_search` computes on a strictly ascending non-empty list:
either it hits the unique exact match, whose index is the number of smaller
entries, or it reports the insertion point `countLe ds t` and no entry
equals the target. -/
theorem binary_search_cases (ds : List Int) (t : Int)
    (hs : ds.Pairwise (fun a b => a < b)) (hne : ds.length ≠ 0) :
    (binary_search ds t = Except.ok (countLt ds t) ∧ countLt ds t < ds.length ∧
       ds.getD (countLt ds t) 0 = t ∧ countLe ds t = countLt ds t + 1) ∨
    (binary_search ds t = Except.error (countLe ds t) ∧
       countLt ds t = countLe ds t ∧
       ∀ j, j < ds.length → ds.getD j 0 ≠ t) := by
  obtain ⟨hble, hblt, Hlo, Hhi⟩ :=
    bsLoop_spec hs ds.length 0 (by omega) (by omega)
      (fun j hj => absurd hj (Nat.not_lt_zero j))
      (fun j hj hjlen => by omega)
  have hunf : binary_search ds t =
      (if ds.getD (bsLoop ds t 0 ds.length) 0 = t
        then Except.ok (bsLoop ds t 0 ds.length)
        else if ds.getD (bsLoop ds t 0 ds.length) 0 < t
          then Except.error (bsLoop ds t 0 ds.length + 1)
          else Except.error (bsLoop ds t 0 ds.length)) := by
    unfold binary_search
    rw [if_neg hne]
  rcases lt_trichotomy (ds.getD (bsLoop ds t 0 ds.length) 0) t with hx | hx | hx
  · -- final entry below target: no match, insertion point one past it
    right
    have hclt : countLt ds t = bsLoop ds t 0 ds.length + 1 := by
      apply countLt_eq_succ_of_window hs hblt
      · intro j hj
        rcases eq_or_lt_of_le hj with rfl | h
        · exact hx
        · exact Hlo j h
      · intro j hj hjl
        exact not_lt.mpr (le_of_lt (Hhi j hj hjl))
    have hcle : countLe ds t = bsLoop ds t 0 ds.length + 1 := by
      apply countLe_eq_succ_of_window hs hblt
      · intro j hj
        rcases eq_or_lt_of_le hj with rfl | h
        · exact le_of_lt hx
        · exact le_of_lt (Hlo j h)
      · intro j hj hjl
        exact not_le.mpr (Hhi j hj hjl)
    refine ⟨?_, by omega, ?_⟩
    · rw [hunf, if_neg (ne_of_lt hx), if_pos hx, hcle]
    · intro j hjl heq
      rcases lt_trichotomy j (bsLoop ds t 0 ds.length) with h | h | h
      · exact absurd heq (ne_of_lt (Hlo j h))
      · rw [h] at heq
        exact absurd heq (ne_of_lt hx)
      · exact absurd heq.symm (ne_of_lt (Hhi j h hjl))
  · -- exact match at the final index
    left
    have hclt : countLt ds t = bsLoop ds t 0 ds.length := by
      apply countLt_eq_of_window hs hblt Hlo
      rw [hx]
      exact lt_irrefl t
    have hcle : countLe ds t = bsLoop ds t 0 ds.length + 1 := by
      apply countLe_eq_succ_of_window hs hblt
      · intro j hj
        rcases eq_or_lt_of_le hj with rfl | h
        · exact le_of_eq hx
        · exact le_of_lt (Hlo j h)
      · intro j hj hjl
        exact not_le.mpr (Hhi j hj hjl)
    refine ⟨?_, by rw [hclt]; exact hblt, by rw [hclt]; exact hx, by omega⟩
    rw [hunf, if_pos hx, hclt]
  · -- final entry above target: no match, insertion point at it
    right
    have hclt : countLt ds t = bsLoop ds t 0 ds.length :=
      countLt_eq_of_window hs hblt Hlo (not_lt.mpr (le_of_lt hx))
    have hcle : countLe ds t = bsLoop ds t 0 ds.length :=
      countLe_eq_of_window hs hblt (fun j hj => le_of_lt (Hlo j hj))
        (not_le.mpr hx)
    refine ⟨?_, by omega, ?_⟩
    · rw [hunf, if_neg (ne_of_gt hx), if_neg (not_lt.mpr (le_of_lt hx)), hcle]
    · intro j hjl heq
      rcases lt_trichotomy j (bsLoop ds t 0 ds.length) with h | h | h
      · exact absurd heq (ne_of_lt (Hlo j h))
      · rw [h] at heq
        exact absurd heq.symm (ne_of_lt hx)
      · exact absurd heq.symm (ne_of_lt (Hhi j h hjl))

/-- Resolution of the as-of position shared by the standalone entry points
(src/src/lib.rs:493-504): an exact binary-search match is used as-is; a miss
at insertion point `0` means the query date precedes every entry (no
position); any other miss resolves to the entry just before the insertion
point. -/
def lookupPos (ds : List Int) (d : Int) : Option Nat :=
  match binary_search ds d with
  | Except.ok idx => some idx
  | Except.error idx => if idx = 0 then none else some (idx - 1)

/-- `kq_get_value_from_arrays` (src/src/lib.rs:476-507).  The `PgDate`
arguments arrive as their `to_pg_epoch_days` day counts.  The outer `Option`
models the PostgreSQL `error!` abort raised on a length mismatch: `none`
means the call terminates abnormally without producing a value. -/
def kq_get_value_from_arrays (dates : List Int) (values : List Int)
    (date : Int) (default_value : Option Int) : Option (Option Int) :=
  if dates.isEmpty || values.isEmpty then some default_value
  else if dates.length ≠ values.length then none
  else
    match lookupPos dates date with
    | none => some default_value
    | some pos =>
      match values[pos]? with
      | some v => some (some v)
      | none => some default_value

/-- `kq_get_value_from_custom_type` (src/src/lib.rs:515-552) over the
`DateValue` records, which carry exactly a date and a value and are modelled
as `StoreDateRatePair`.  This entry point has no abnormal exit. -/
def kq_get_value_from_custom_type (date_values : List StoreDateRatePair)
    (date : Int) (default_value : Option Int) : Option Int :=
  if date_values.isEmpty then default_value
  else
    match lookupPos (date_values.map Prod.fst) date with
    | none => default_value
    | some pos =>
      match date_values[pos]? with
      | some dv => some dv.2
      | none => default_value

/-- `heapless::FnvIndexMap::get`, over the map's insertion-ordered entries. -/
def mapGet {κ ν : Type} [DecidableEq κ] : List (κ × ν) → κ → Option ν
  | [], _ => none
  | (k2, v) :: rest, k => if k2 = k then some v else mapGet rest k

/-- Entries of the shared `CURRENCY_DATA_MAP` (src/src/lib.rs:110-114,123):
`(from_id, to_id)` keys to `(date, rate)` series, in insertion order. -/
abbrev CurrencyDataMap := List (FromToIdPair × List StoreDateRatePair)

/-- Entries of the shared `CURRENCY_XUID_MAP` (src/src/lib.rs:115,121):
xuid keys to currency ids, in insertion order. -/
abbrev CurrencyXuidMap := List (String × Int)

/-- The per-series body of `kq_fx_get_rate` (src/src/lib.rs:409-438).  The
outer `Option`: `none` models the panic of `first().unwrap()` /
`last().unwrap()` (reached when the stored series is empty) and of an
out-of-bounds index. -/
def kq_fx_get_rate_lookup (dates_rates : List StoreDateRatePair)
    (date : Int) : Option (Option Int) :=
  match dates_rates.head? with
  | none => none
  | some first =>
    if date < first.1 then some none
    else if date = first.1 then some (some first.2)
    else
      match dates_rates.getLast? with
      | none => none
      | some last =>
        if last.1 ≤ date then some (some last.2)
        else
          match binary_search (dates_rates.map Prod.fst) date with
          | Except.ok index =>
            match dates_rates[index]? with
            | some p => some (some p.2)
            | none => none
          | Except.error index =>
            if 0 < index then
              match dates_rates[index - 1]? with
              | some p => some (some p.2)
              | none => none
            else some none

/-- `kq_fx_get_rate` (src/src/lib.rs:399-442).  The identity short-circuit
(lines 402-404) runs before anything else; the `ensure_cache_populated()`
call at line 406 is modelled separately (the lookup is parameterised by the
already-populated store), and `1` stands for the literal `1.0`. -/
def kq_fx_get_rate (data_map : CurrencyDataMap) (currency_id to_currency_id : Int)
    (date : Int) : Option (Option Int) :=
  if currency_id = to_currency_id then some (some 1)
  else
    match mapGet data_map (currency_id, to_currency_id) with
    | some dates_rates => kq_fx_get_rate_lookup dates_rates date
    | none => some none

/-- `CurrencyXuid::from`, i.e. `heapless::String<16>::from(&str)`
(CURRENCY_XUID_MAX_LEN = 16, src/src/lib.rs:19,109): copies the UTF-8 bytes
verbatim and panics (`none`) when they exceed the 16-byte capacity.  No case
normalization of any kind is performed. -/
def currencyXuidFrom (s : String) : Option String :=
  if s.utf8ByteSize ≤ 16 then some s else none

/-- `kq_fx_get_rate_xuid` (src/src/lib.rs:444-473).  `none` models both the
conversion panic and the `error!` aborts raised when an xuid is not found
(lines 461-471). -/
def kq_fx_get_rate_xuid (xuid_map : CurrencyXuidMap) (data_map : CurrencyDataMap)
    (currency_xuid to_currency_xuid : String) (date : Int) :
    Option (Option Int) :=
  match currencyXuidFrom currency_xuid with
  | none => none
  | some cx =>
    match currencyXuidFrom to_currency_xuid with
    | none => none
    | some tx =>
      if cx = tx then some (some 1)
      else
        match mapGet xuid_map cx with
        | none => none
        | some from_id =>
          match mapGet xuid_map tx with
          | none => none
          | some to_id => kq_fx_get_rate data_map from_id to_id date

/-- Specification-side as-of semantics, written from the spec's words: the
value of the latest observation whose date is not later than the query date,
or nothing when the series has no such observation. -/
def specAsOf (S : List StoreDateRatePair) (d : Int) : Option Int :=
  match (S.filter (fun p => decide (p.1 ≤ d))).getLast? with
  | none => none
  | some p => some p.2

/-- Strict date-ascending order for a series of samples. -/
abbrev DateSorted (S : List StoreDateRatePair) : Prop :=
  S.Pairwise (fun p q => p.1 < q.1)

theorem dateSorted_map_fst {S : List StoreDateRatePair} (hs : DateSorted S) :
    (S.map Prod.fst).Pairwise (fun a b => a < b) :=
  List.pairwise_map.mpr hs

theorem getD_map_fst (S : List StoreDateRatePair) {j : Nat} (hj : j < S.length) :
    (S.map Prod.fst).getD j 0 = (S.get ⟨j, hj⟩).1 := by
  rw [List.getD_eq_getElem _ _ (by simpa using hj)]
  simp [List.getElem_map]

/-- On a date-sorted series the spec-side filter is an initial segment. -/
theorem filter_le_eq_take {S : List StoreDateRatePair} {d : Int}
    (hs : DateSorted S) :
    S.filter (fun p => decide (p.1 ≤ d)) = S.take (countLe (S.map Prod.fst) d) := by
  induction S with
  | nil => rfl
  | cons p l ih =>
    have hp := (List.pairwise_cons.mp hs).1
    have hl := (List.pairwise_cons.mp hs).2
    rw [List.map_cons, countLe_cons]
    by_cases hpd : p.1 ≤ d
    · rw [if_pos hpd, List.filter_cons_of_pos (by simpa using hpd)]
      rw [Nat.add_comm, List.take_succ_cons, ih hl]
    · rw [if_neg hpd]
      have hall : ∀ x ∈ l.map Prod.fst, d < x := by
        intro x hx
        obtain ⟨q, hq, rfl⟩ := List.mem_map.mp hx
        exact lt_trans (lt_of_not_le hpd) (hp q hq)
      rw [countLe_eq_zero_of_forall_gt hall]
      rw [List.filter_cons_of_neg (by simpa using hpd)]
      rw [List.take_zero]
      rw [List.filter_eq_nil_iff]
      intro a ha
      simp only [decide_eq_true_eq, not_le]
      exact lt_trans (lt_of_not_le hpd) (hp a ha)

/-- The spec-side as-of value on a date-sorted series: nothing when no date
is `≤ d`, otherwise the value at index `countLe - 1`. -/
theorem specAsOf_characterization (S : List StoreDateRatePair) (d : Int)
    (hs : DateSorted S) :
    (countLe (S.map Prod.fst) d = 0 → specAsOf S d = none) ∧
    (0 < countLe (S.map Prod.fst) d →
      specAsOf S d = (S[countLe (S.map Prod.fst) d - 1]?).map Prod.snd) := by
  have hlen : countLe (S.map Prod.fst) d ≤ S.length := by
    have := countLe_le_length (S.map Prod.fst) d
    simpa using this
  constructor
  · intro h0
    unfold specAsOf
    rw [filter_le_eq_take hs, h0, List.take_zero]
    rfl
  · intro hpos
    unfold specAsOf
    rw [filter_le_eq_take hs]
    have htl : (S.take (countLe (S.map Prod.fst) d)).length =
        countLe (S.map Prod.fst) d := by
      rw [List.length_take]
      omega
    rw [List.getLast?_eq_getElem?, htl, List.getElem?_take, if_pos (by omega)]
    have hidx : countLe (S.map Prod.fst) d - 1 < S.length := by omega
    rw [List.getElem?_eq_getElem hidx]
    rfl

/-- What the shared position resolution computes on a strictly ascending
non-empty list: nothing when every date exceeds the query, otherwise the
index of the last date `≤` the query. -/
theorem lookupPos_characterization (ds : List Int) (d : Int)
    (hs : ds.Pairwise (fun a b => a < b)) (hne : ds.length ≠ 0) :
    lookupPos ds d = if countLe ds d = 0 then none else some (countLe ds d - 1) := by
  unfold lookupPos
  rcases binary_search_cases ds d hs hne with ⟨hbs, hlt, hget, hle⟩ | ⟨hbs, hltle, hnom⟩
  · rw [hbs]
    rw [if_neg (by omega)]
    show some (countLt ds d) = some (countLe ds d - 1)
    congr 1
    omega
  · rw [hbs]

/-- `kq_get_value_from_custom_type` realises the spec-side as-of semantics
(with the caller's default for the no-observation case) on date-sorted
input. -/
theorem custom_type_eq_spec (S : List StoreDateRatePair) (d : Int)
    (default_value : Option Int) (hs : DateSorted S) :
    kq_get_value_from_custom_type S d default_value =
      (match specAsOf S d with
       | none => default_value
       | some v => some v) := by
  unfold kq_get_value_from_custom_type
  by_cases hemp : S.isEmpty
  · rw [if_pos hemp]
    have hnil : S = [] := List.isEmpty_iff.mp hemp
    subst hnil
    rfl
  · rw [if_neg hemp]
    have hne : S ≠ [] := fun h => by rw [h] at hemp; simp at hemp
    have hlen : (S.map Prod.fst).length ≠ 0 := by
      simp only [List.length_map, ne_eq, List.length_eq_zero]
      exact hne
    rw [lookupPos_characterization _ _ (dateSorted_map_fst hs) hlen]
    obtain ⟨hc0, hcpos⟩ := specAsOf_characterization S d hs
    by_cases h0 : countLe (S.map Prod.fst) d = 0
    · rw [if_pos h0, hc0 h0]
    · rw [if_neg h0]
      rw [hcpos (by omega)]
      have hidx : countLe (S.map Prod.fst) d - 1 < S.length := by
        have := countLe_le_length (S.map Prod.fst) d
        simp only [List.length_map] at this
        omega
      rw [List.getElem?_eq_getElem hidx]
      simp
      rw [List.getElem?_eq_getElem hidx]

/-- On the same samples, the parallel-arrays entry point and the
paired-structures entry point compute identically (no sortedness is even
needed: they run the same search over the same date list). -/
theorem arrays_eq_custom_type (S : List StoreDateRatePair) (d : Int)
    (default_value : Option Int) :
    kq_get_value_from_arrays (S.map Prod.fst) (S.map Prod.snd) d default_value =
      some (kq_get_value_from_custom_type S d default_value) := by
  cases S with
  | nil => rfl
  | cons p l =>
    unfold kq_get_value_from_arrays kq_get_value_from_custom_type
    simp only [List.map_cons, List.isEmpty_cons, Bool.or_self, Bool.false_eq_true,
      if_false, List.length_cons, List.length_map, ne_eq, not_true_eq_false]
    rw [← List.map_cons Prod.fst p l, ← List.map_cons Prod.snd p l]
    cases hpos : lookupPos ((p :: l).map Prod.fst) d with
    | none => rfl
    | some pos =>
      simp only [List.getElem?_map]
      cases hget : (p :: l)[pos]? with
      | none => rfl
      | some dv => rfl

/-- Core agreement: on a non-empty strictly date-ascending series, the body
of `kq_fx_get_rate` (first/last short-cuts plus binary search) computes
exactly the spec-side as-of value — in particular it never panics. -/
theorem get_rate_lookup_eq_spec (S : List StoreDateRatePair) (d : Int)
    (hs : DateSorted S) (hne : S ≠ []) :
    kq_fx_get_rate_lookup S d = some (specAsOf S d) := by
  obtain ⟨f, l, rfl⟩ := List.exists_cons_of_ne_nil hne
  have hs1 : ((f :: l).map Prod.fst).Pairwise (fun a b => a < b) := dateSorted_map_fst hs
  have hlen0 : ((f :: l).map Prod.fst).length ≠ 0 := by simp
  obtain ⟨hc0, hcpos⟩ := specAsOf_characterization (f :: l) d hs
  unfold kq_fx_get_rate_lookup
  simp only [List.head?_cons]
  by_cases h1 : d < f.1
  · rw [if_pos h1]
    have hall : ∀ x ∈ (f :: l).map Prod.fst, d < x := by
      intro x hx
      obtain ⟨q, hq, rfl⟩ := List.mem_map.mp hx
      rcases List.mem_cons.mp hq with rfl | hq2
      · exact h1
      · exact lt_trans h1 ((List.pairwise_cons.mp hs).1 q hq2)
    rw [hc0 (countLe_eq_zero_of_forall_gt hall)]
  · rw [if_neg h1]
    by_cases h2 : d = f.1
    · rw [if_pos h2]
      have hcle : countLe ((f :: l).map Prod.fst) d = 1 := by
        have h00 : (0 : Nat) < ((f :: l).map Prod.fst).length := by simp
        apply countLe_eq_succ_of_window hs1 h00
        · intro j hj
          have hj0 : j = 0 := Nat.le_zero.mp hj
          subst hj0
          rw [List.map_cons, List.getD_cons_zero]
          omega
        · intro j hj hjl
          have hlt := sorted_getD_lt hs1 hj hjl
          rw [List.map_cons, List.getD_cons_zero] at hlt
          rw [List.map_cons]
          omega
      rw [hcpos (by omega), hcle]
      simp
    · rw [if_neg h2]
      have hf1d : f.1 < d := by omega
      have hconsne : (f :: l) ≠ [] := List.cons_ne_nil f l
      simp only [List.getLast?_eq_getLast_of_ne_nil hconsne]
      have hlastidx : l.length < (f :: l).length := by simp
      have hlast_eq : (f :: l).getLast hconsne = (f :: l).get ⟨l.length, hlastidx⟩ := by
        have h := List.getLast_eq_getElem (f :: l) hconsne
        simpa using h
      have hmaplen : l.length < ((f :: l).map Prod.fst).length := by simp
      have hlastds : ((f :: l).map Prod.fst).getD l.length 0 =
          ((f :: l).getLast hconsne).1 := by
        rw [hlast_eq, List.getD_eq_getElem _ _ hmaplen, List.getElem_map]
        rfl
      by_cases h3 : ((f :: l).getLast hconsne).1 ≤ d
      · rw [if_pos h3]
        have hha : ∀ j, j < ((f :: l).map Prod.fst).length →
            ((f :: l).map Prod.fst).getD j 0 ≤ d := by
          intro j hj
          have hjS : j < l.length + 1 := by simpa using hj
          rcases Nat.lt_or_ge j l.length with hjlt | hjge
          · have hlt2 := sorted_getD_lt hs1 hjlt hmaplen
            rw [hlastds] at hlt2
            omega
          · have hjeq : j = l.length := by omega
            subst hjeq
            rw [hlastds]
            exact h3
        have hcle : countLe ((f :: l).map Prod.fst) d = l.length + 1 := by
          have hlb := (getD_le_iff_lt_countLe hs1 l.length hmaplen).mp
            (hha _ hmaplen)
          have hub := countLe_le_length ((f :: l).map Prod.fst) d
          simp only [List.length_map, List.length_cons] at hub
          omega
        rw [hcpos (by omega), hcle]
        have hn : l.length + 1 - 1 = l.length := by omega
        rw [hn, List.getElem?_eq_getElem hlastidx, hlast_eq]
        rfl
      · rw [if_neg h3]
        rcases binary_search_cases ((f :: l).map Prod.fst) d hs1 hlen0 with
          ⟨hbs, hlt, hget, hle⟩ | ⟨hbs, hltle, hnom⟩
        · simp only [hbs]
          have hltS : countLt ((f :: l).map Prod.fst) d < (f :: l).length := by
            simpa using hlt
          rw [List.getElem?_eq_getElem hltS]
          rw [hcpos (by omega), hle]
          have hsub : countLt ((f :: l).map Prod.fst) d + 1 - 1 =
              countLt ((f :: l).map Prod.fst) d := by omega
          rw [hsub, List.getElem?_eq_getElem hltS]
          rfl
        · simp only [hbs]
          have hd0 : ((f :: l).map Prod.fst).getD 0 0 ≤ d := by
            rw [List.map_cons, List.getD_cons_zero]
            omega
          have hpos0 : 0 < countLe ((f :: l).map Prod.fst) d := by
            have := (getD_le_iff_lt_countLe hs1 0 (by simp)).mp hd0
            omega
          rw [if_pos hpos0]
          have hidx : countLe ((f :: l).map Prod.fst) d - 1 < (f :: l).length := by
            have := countLe_le_length ((f :: l).map Prod.fst) d
            simp only [List.length_map, List.length_cons] at this
            simp only [List.length_cons]
            omega
          rw [List.getElem?_eq_getElem hidx, hcpos hpos0, List.getElem?_eq_getElem hidx]
          rfl

/-- Capacity parameters (src/src/lib.rs:16-18). -/
def MAX_ENTRIES : Nat := 512

/-- Capacity of the xuid map (src/src/lib.rs:17). -/
def MAX_CURRENCIES : Nat := 64

/-- Capacity of the data map (src/src/lib.rs:18). -/
def MAX_ID_PAIRS : Nat := 1024

theorem mapGet_nil {κ ν : Type} [DecidableEq κ] (q : κ) :
    mapGet ([] : List (κ × ν)) q = none := rfl

theorem mapGet_cons {κ ν : Type} [DecidableEq κ] (k2 : κ) (v2 : ν)
    (rest : List (κ × ν)) (q : κ) :
    mapGet ((k2, v2) :: rest) q = if k2 = q then some v2 else mapGet rest q := rfl

/-- In-place update of the value stored under `k` (position and key kept). -/
def mapUpdate {κ ν : Type} [DecidableEq κ] (m : List (κ × ν)) (k : κ)
    (g : ν → ν) : List (κ × ν) :=
  m.map (fun p => if p.1 = k then (p.1, g p.2) else p)

/-- `heapless::FnvIndexMap::insert`: replaces the value of an existing key
in place, appends a new key when capacity allows, and fails (`none`; the
caller's `.unwrap()` then panics) when the map is full and the key is new. -/
def mapInsert {κ ν : Type} [DecidableEq κ] (cap : Nat) (m : List (κ × ν))
    (k : κ) (v : ν) : Option (List (κ × ν)) :=
  match mapGet m k with
  | some _ => some (mapUpdate m k (fun _ => v))
  | none => if m.length < cap then some (m ++ [(k, v)]) else none

/-- One row of the identity phase (src/src/lib.rs:211-229): build the
bounded xuid string (panicking when it exceeds 16 bytes) and insert it
verbatim — `xuid_map.insert(xuid_str, id).unwrap()` — with no case
normalization anywhere; the `.unwrap()` panic on a full map is `none`. -/
def insertXuidRow (m : CurrencyXuidMap) (row : Int × String) :
    Option CurrencyXuidMap :=
  match currencyXuidFrom row.2 with
  | none => none
  | some x => mapInsert MAX_CURRENCIES m x row.1

/-- The identity phase over the rows of the Q2 feed, in order.  A row
failure aborts the phase and surfaces the partially updated map as the
error state. -/
def populateXuids (rows : List (Int × String)) (m : CurrencyXuidMap) :
    Except CurrencyXuidMap CurrencyXuidMap :=
  match rows with
  | [] => Except.ok m
  | r :: rest =>
    match insertXuidRow m r with
    | none => Except.error m
    | some m2 => populateXuids rest m2

/-- One row of the Q3 rate feed: `(from_id, to_id, date, rate)`
(src/src/lib.rs:242-263), the date already converted by
`to_pg_epoch_days`. -/
abbrev RateRow := Int × Int × Int × Int

/-- The map key `(from_id, to_id)` of a rate row (src/src/lib.rs:265). -/
def rowKey (r : RateRow) : FromToIdPair := (r.1, r.2.1)

/-- The stored entry `(date, rate)` of a rate row (src/src/lib.rs:263). -/
def rowEntry (r : RateRow) : StoreDateRatePair := (r.2.2.1, r.2.2.2)

/-- One row of the series phase (src/src/lib.rs:265-279): fetch-or-create
the series for `(from_id, to_id)` and push `(date, rate)` at its end.
`none` models the aborts when the per-series vector (capacity
`MAX_ENTRIES`) or the map (capacity `MAX_ID_PAIRS`) is full.  No sorting of
any kind is performed. -/
def insertRateRow (m : CurrencyDataMap) (r : RateRow) : Option CurrencyDataMap :=
  match mapGet m (rowKey r) with
  | some data_vec =>
    if data_vec.length < MAX_ENTRIES then
      some (mapUpdate m (rowKey r) (fun data_vec => data_vec ++ [rowEntry r]))
    else none
  | none =>
    if m.length < MAX_ID_PAIRS then some (m ++ [(rowKey r, [rowEntry r])])
    else none

/-- The series phase over the rows of the Q3 feed, in order; the rows are
stored exactly in feed order (no sort happens afterwards either: the code
proceeds directly to the final control write, src/src/lib.rs:296-306). -/
def populateEntries (rows : List RateRow) (m : CurrencyDataMap) :
    Except CurrencyDataMap CurrencyDataMap :=
  match rows with
  | [] => Except.ok m
  | r :: rest =>
    match insertRateRow m r with
    | none => Except.error m
    | some m2 => populateEntries rest m2

/-- `CurrencyControl` (src/src/lib.rs:95-99). -/
structure CurrencyControl where
  cache_filled : Bool
  cache_being_filled : Bool
deriving DecidableEq

/-- `CurrencyControl::default()`: both flags false. -/
def CurrencyControl.default : CurrencyControl := ⟨false, false⟩

/-- The shared-memory state: the control struct and both maps
(src/src/lib.rs:119-123). -/
structure CacheState where
  control : CurrencyControl
  xuid_map : CurrencyXuidMap
  data_map : CurrencyDataMap
deriving DecidableEq

/-- Collaborator inputs of one `ensure_cache_populated` run: the result of
the Q1 validation query (`none` = SPI failure or no row) and the row
sequences of the Q2 identity feed and Q3 rate feed (`none` = the SPI select
itself failed). -/
structure Feeds where
  validation : Option Bool
  identity_rows : Option (List (Int × String))
  rate_rows : Option (List RateRow)

/-- `is_cache_filled` (src/src/lib.rs:170-183) for a single execution
context: `some` is the function's return value; `none` models the poll loop
`while cache_being_filled { sleep(1ms) }`, which never terminates when no
other context clears the flag. -/
def is_cache_filled (c : CurrencyControl) : Option Bool :=
  if c.cache_filled then some true
  else if c.cache_being_filled then none
  else some false

/-- Result of one `ensure_cache_populated` call: a normal return with the
final shared state, an abort via `error!`/panic leaving the shared state as
it stood at the abort point, or no return at all (stuck polling). -/
inductive PopOutcome
  | ok (s : CacheState)
  | err (s : CacheState)
  | hung
deriving DecidableEq

/-- `validate_compatible_db` (src/src/lib.rs:317-337): only `Some(true)`
passes; an SPI error, a missing row and `false` are all failures. -/
def validate_compatible_db (validation : Option Bool) : Bool :=
  match validation with
  | some true => true
  | _ => false

/-- `ensure_cache_populated` (src/src/lib.rs:186-306), sequentially, for one
execution context against the shared state and the feed collaborators,
mirroring the code step by step: early return when filled; `error!` on a
failed validation; the re-check after taking the exclusive xuid lock;
setting `cache_being_filled = true` (line 202); the identity phase; the
series phase; and the final control write `{ cache_filled: true,
cache_being_filled: false }` (lines 298-303).  Note that the abort paths
surface the state exactly as it stands — with `cache_being_filled` left
`true` — because nothing in the code resets the flag on the `error!`
exits. -/
def ensure_cache_populated (s : CacheState) (f : Feeds) : PopOutcome :=
  match is_cache_filled s.control with
  | none => PopOutcome.hung
  | some true => PopOutcome.ok s
  | some false =>
    if validate_compatible_db f.validation = false then PopOutcome.err s
    else
      match is_cache_filled s.control with
      | none => PopOutcome.hung
      | some true => PopOutcome.ok s
      | some false =>
        let s1 : CacheState :=
          ⟨⟨s.control.cache_filled, true⟩, s.xuid_map, s.data_map⟩
        match f.identity_rows with
        | none => PopOutcome.err s1
        | some id_rows =>
          match populateXuids id_rows s1.xuid_map with
          | Except.error pm => PopOutcome.err ⟨s1.control, pm, s1.data_map⟩
          | Except.ok xm =>
            match f.rate_rows with
            | none => PopOutcome.err ⟨s1.control, xm, s1.data_map⟩
            | some rate_rows =>
              match populateEntries rate_rows s1.data_map with
              | Except.error pdm => PopOutcome.err ⟨s1.control, xm, pdm⟩
              | Except.ok dm => PopOutcome.ok ⟨⟨true, false⟩, xm, dm⟩

/-- `kq_fx_invalidate_cache` (src/src/lib.rs:349-367): clears every stored
series vector, then clears the data map itself (so the per-vector clears
are superseded and the final data map is empty), resets the control struct
to its default, and clears the xuid map. -/
def kq_fx_invalidate_cache (_s : CacheState) : CacheState :=
  ⟨CurrencyControl.default, [], []⟩

theorem mapGet_append_of_some {κ ν : Type} [DecidableEq κ] {m : List (κ × ν)}
    {q : κ} {w : ν} (h : mapGet m q = some w) (k : κ) (v : ν) :
    mapGet (m ++ [(k, v)]) q = some w := by
  induction m with
  | nil => rw [mapGet_nil] at h; cases h
  | cons p rest ih =>
    obtain ⟨k2, v2⟩ := p
    rw [mapGet_cons] at h
    rw [List.cons_append, mapGet_cons]
    by_cases hk : k2 = q
    · rw [if_pos hk] at h ⊢; exact h
    · rw [if_neg hk] at h ⊢; exact ih h

theorem mapGet_append_of_none {κ ν : Type} [DecidableEq κ] {m : List (κ × ν)}
    {q : κ} (h : mapGet m q = none) (k : κ) (v : ν) :
    mapGet (m ++ [(k, v)]) q = if k = q then some v else none := by
  induction m with
  | nil => rw [List.nil_append, mapGet_cons, mapGet_nil]
  | cons p rest ih =>
    obtain ⟨k2, v2⟩ := p
    rw [mapGet_cons] at h
    rw [List.cons_append, mapGet_cons]
    by_cases hk : k2 = q
    · rw [if_pos hk] at h; cases h
    · rw [if_neg hk] at h ⊢; exact ih h

theorem mapGet_mapUpdate {κ ν : Type} [DecidableEq κ] (m : List (κ × ν))
    (k : κ) (g : ν → ν) (q : κ) :
    mapGet (mapUpdate m k g) q =
      if k = q then (mapGet m k).map g else mapGet m q := by
  induction m with
  | nil => by_cases hq : k = q <;> simp [mapUpdate, mapGet_nil, hq]
  | cons p rest ih =>
    obtain ⟨k2, v2⟩ := p
    have hcons : mapUpdate ((k2, v2) :: rest) k g =
        (if k2 = k then (k2, g v2) else (k2, v2)) :: mapUpdate rest k g := by
      by_cases h2 : k2 = k <;> simp [mapUpdate, h2]
    rw [hcons]
    by_cases h2 : k2 = k
    · rw [if_pos h2, mapGet_cons, mapGet_cons, mapGet_cons, if_pos h2]
      by_cases hq : k2 = q
      · rw [if_pos hq, if_pos (h2.symm.trans hq)]
        rfl
      · have hkq : ¬ k = q := fun h => hq (h2.trans h)
        rw [if_neg hq, ih, if_neg hkq, if_neg hkq, if_neg hq]
    · rw [if_neg h2, mapGet_cons, mapGet_cons, mapGet_cons, if_neg h2]
      by_cases hq : k2 = q
      · have hkq : ¬ k = q := fun h => h2 (hq.trans h.symm)
        rw [if_pos hq, if_pos hq, if_neg hkq]
      · rw [if_neg hq, if_neg hq, ih]

/-- The entries the rate feed contributes to the series of a pair, in feed
order. -/
def seriesOf (rows : List RateRow) (p : FromToIdPair) : List StoreDateRatePair :=
  (rows.filter (fun r => decide (rowKey r = p))).map rowEntry

theorem seriesOf_nil (p : FromToIdPair) : seriesOf [] p = [] := rfl

theorem seriesOf_cons_eq {r : RateRow} {p : FromToIdPair} (rest : List RateRow)
    (h : rowKey r = p) : seriesOf (r :: rest) p = rowEntry r :: seriesOf rest p := by
  simp [seriesOf, List.filter_cons, h]

theorem seriesOf_cons_ne {r : RateRow} {p : FromToIdPair} (rest : List RateRow)
    (h : ¬ rowKey r = p) : seriesOf (r :: rest) p = seriesOf rest p := by
  simp [seriesOf, List.filter_cons, h]

/-- The series stored under a pair after a population pass, as a function of
what was there before and what the feed contributed. -/
def seriesAfter (m0 : Option (List StoreDateRatePair))
    (es : List StoreDateRatePair) : Option (List StoreDateRatePair) :=
  match m0 with
  | some l => some (l ++ es)
  | none => if es = [] then none else some es

/-- Full characterization of the series phase: when it completes, the series
stored under every pair is the pre-existing series extended, in feed order,
by exactly that pair's feed entries (created fresh when the pair was absent
and the feed touches it, left absent otherwise).  In particular nothing is
ever sorted or removed. -/
theorem populateEntries_lookup (rows : List RateRow) :
    ∀ m m', populateEntries rows m = Except.ok m' →
      ∀ p, mapGet m' p = seriesAfter (mapGet m p) (seriesOf rows p) := by
  induction rows with
  | nil =>
    intro m m' h p
    unfold populateEntries at h
    injection h with h'
    subst h'
    rw [seriesOf_nil]
    cases hg : mapGet m p <;> simp [seriesAfter]
  | cons r rest ih =>
    intro m m' h p
    unfold populateEntries at h
    cases hins : insertRateRow m r with
    | none => rw [hins] at h; cases h
    | some m2 =>
      rw [hins] at h
      have hstep := ih m2 m' h p
      rw [hstep]
      unfold insertRateRow at hins
      by_cases hk : rowKey r = p
      · subst hk
        rw [seriesOf_cons_eq rest rfl]
        cases hget : mapGet m (rowKey r) with
        | some vec =>
          simp only [hget] at hins
          by_cases hcap : vec.length < MAX_ENTRIES
          · rw [if_pos hcap] at hins
            injection hins with h'
            subst h'
            rw [mapGet_mapUpdate, if_pos rfl, hget]
            simp [seriesAfter, List.append_assoc]
          · rw [if_neg hcap] at hins; cases hins
        | none =>
          simp only [hget] at hins
          by_cases hcap : m.length < MAX_ID_PAIRS
          · rw [if_pos hcap] at hins
            injection hins with h'
            subst h'
            rw [mapGet_append_of_none hget, if_pos rfl]
            simp [seriesAfter]
          · rw [if_neg hcap] at hins; cases hins
      · rw [seriesOf_cons_ne rest hk]
        cases hget : mapGet m (rowKey r) with
        | some vec =>
          simp only [hget] at hins
          by_cases hcap : vec.length < MAX_ENTRIES
          · rw [if_pos hcap] at hins
            injection hins with h'
            subst h'
            rw [mapGet_mapUpdate, if_neg hk]
          · rw [if_neg hcap] at hins; cases hins
        | none =>
          simp only [hget] at hins
          by_cases hcap : m.length < MAX_ID_PAIRS
          · rw [if_pos hcap] at hins
            injection hins with h'
            subst h'
            cases hgp : mapGet m p with
            | some w => rw [mapGet_append_of_some hgp]
            | none => rw [mapGet_append_of_none hgp, if_neg hk]
          · rw [if_neg hcap] at hins; cases hins

/-- The binary-search loop never leaves the window, sorted or not. -/
theorem bsLoop_lt_length (ds : List Int) (t : Int) :
    ∀ size base, 1 ≤ size → base + size ≤ ds.length →
      base ≤ bsLoop ds t base size ∧ bsLoop ds t base size < ds.length := by
  intro size
  induction size using Nat.strong_induction_on with
  | _ size ih =>
    intro base h1 h2
    rw [bsLoop]
    by_cases hsz : size ≤ 1
    · rw [if_pos hsz]
      omega
    · rw [if_neg hsz]
      by_cases hcmp : t < ds.getD (base + size / 2) 0
      · rw [if_pos hcmp]
        exact ih (size - size / 2) (by omega) base (by omega) (by omega)
      · rw [if_neg hcmp]
        obtain ⟨ha, hb⟩ := ih (size - size / 2) (by omega) (base + size / 2)
          (by omega) (by omega)
        exact ⟨by omega, hb⟩

/-- An exact binary-search match is always in bounds and a reported
insertion point never exceeds the length, sorted or not. -/
theorem binary_search_bounds (ds : List Int) (t : Int) (hne : ds.length ≠ 0) :
    (∀ i, binary_search ds t = Except.ok i → i < ds.length) ∧
    (∀ i, binary_search ds t = Except.error i → i ≤ ds.length) := by
  obtain ⟨hle, hlt⟩ := bsLoop_lt_length ds t ds.length 0 (by omega) (by omega)
  unfold binary_search
  rw [if_neg hne]
  constructor
  · intro i hi
    by_cases h1 : ds.getD (bsLoop ds t 0 ds.length) 0 = t
    · rw [if_pos h1] at hi
      injection hi with h'
      omega
    · rw [if_neg h1] at hi
      by_cases h2 : ds.getD (bsLoop ds t 0 ds.length) 0 < t
      · rw [if_pos h2] at hi; cases hi
      · rw [if_neg h2] at hi; cases hi
  · intro i hi
    by_cases h1 : ds.getD (bsLoop ds t 0 ds.length) 0 = t
    · rw [if_pos h1] at hi; cases hi
    · rw [if_neg h1] at hi
      by_cases h2 : ds.getD (bsLoop ds t 0 ds.length) 0 < t
      · rw [if_pos h2] at hi
        injection hi with h'
        omega
      · rw [if_neg h2] at hi
        injection hi with h'
        omega

/-- On a non-empty series the `kq_fx_get_rate` body cannot panic: the
`first()/last()` unwraps succeed and every index the binary search produces
is in bounds (no sortedness needed). -/
theorem get_rate_lookup_ne_none (S : List StoreDateRatePair) (d : Int)
    (hne : S ≠ []) : kq_fx_get_rate_lookup S d ≠ none := by
  obtain ⟨f, l, rfl⟩ := List.exists_cons_of_ne_nil hne
  unfold kq_fx_get_rate_lookup
  simp only [List.head?_cons]
  by_cases h1 : d < f.1
  · simp [h1]
  · rw [if_neg h1]
    by_cases h2 : d = f.1
    · simp [h2]
    · rw [if_neg h2]
      simp only [List.getLast?_eq_getLast_of_ne_nil (List.cons_ne_nil f l)]
      by_cases h3 : ((f :: l).getLast (List.cons_ne_nil f l)).1 ≤ d
      · simp [h3]
      · rw [if_neg h3]
        obtain ⟨hok, herr⟩ := binary_search_bounds ((f :: l).map Prod.fst) d (by simp)
        cases hbs : binary_search ((f :: l).map Prod.fst) d with
        | ok i =>
          have hi : i < (f :: l).length := by
            have := hok i hbs
            simpa using this
          simp only [hbs]
          rw [List.getElem?_eq_getElem hi]
          simp
        | error i =>
          simp only [hbs]
          by_cases hi0 : 0 < i
          · rw [if_pos hi0]
            have hile : i ≤ (f :: l).length := by
              have := herr i hbs
              simpa using this
            have hidx : i - 1 < (f :: l).length := by
              simp only [List.length_cons] at hile ⊢
              omega
            rw [List.getElem?_eq_getElem hidx]
            simp
          · rw [if_neg hi0]
            simp

/-- Invariant: every series present in the data map is non-empty. -/
def AllSeriesNonempty (m : CurrencyDataMap) : Prop :=
  ∀ p l, mapGet m p = some l → l ≠ []

/-- Each series-phase step preserves non-emptiness of all stored series:
a fresh entry is created as a one-element vector and an existing entry only
grows. -/
theorem insertRateRow_nonempty {m : CurrencyDataMap} {r : RateRow}
    {m2 : CurrencyDataMap} (h : insertRateRow m r = some m2)
    (hm : AllSeriesNonempty m) : AllSeriesNonempty m2 := by
  intro p l hl
  unfold insertRateRow at h
  cases hget : mapGet m (rowKey r) with
  | some vec =>
    simp only [hget] at h
    by_cases hcap : vec.length < MAX_ENTRIES
    · rw [if_pos hcap] at h
      injection h with h'
      subst h'
      rw [mapGet_mapUpdate] at hl
      by_cases hk : rowKey r = p
      · rw [if_pos hk, hget] at hl
        simp only [Option.map_some'] at hl
        injection hl with h2
        rw [← h2]
        simp
      · rw [if_neg hk] at hl
        exact hm p l hl
    · rw [if_neg hcap] at h; cases h
  | none =>
    simp only [hget] at h
    by_cases hcap : m.length < MAX_ID_PAIRS
    · rw [if_pos hcap] at h
      injection h with h'
      subst h'
      by_cases hk : rowKey r = p
      · subst hk
        rw [mapGet_append_of_none hget, if_pos rfl] at hl
        injection hl with h2
        rw [← h2]
        simp
      · cases hgp : mapGet m p with
        | some w =>
          rw [mapGet_append_of_some hgp] at hl
          injection hl with h2
          rw [← h2]
          exact hm p w hgp
        | none =>
          rw [mapGet_append_of_none hgp, if_neg hk] at hl
          cases hl
    · rw [if_neg hcap] at h; cases h

/-- Inversion of a completed population run started from an unfilled state:
both feeds were read successfully, both phases completed, and the final
state carries their results under a `Filled` control word. -/
theorem ensure_ok_inversion (xm0 : CurrencyXuidMap) (dm0 : CurrencyDataMap)
    (f : Feeds) (s' : CacheState)
    (h : ensure_cache_populated ⟨⟨false, false⟩, xm0, dm0⟩ f = PopOutcome.ok s') :
    ∃ id_rows rr xm dm, f.identity_rows = some id_rows ∧ f.rate_rows = some rr ∧
      populateXuids id_rows xm0 = Except.ok xm ∧
      populateEntries rr dm0 = Except.ok dm ∧
      s' = ⟨⟨true, false⟩, xm, dm⟩ := by
  rcases f with ⟨fv, fid, frr⟩
  cases hv : validate_compatible_db fv with
  | false => simp [ensure_cache_populated, is_cache_filled, hv] at h
  | true =>
    cases fid with
    | none => simp [ensure_cache_populated, is_cache_filled, hv] at h
    | some id_rows =>
      cases hx : populateXuids id_rows xm0 with
      | error pm => simp [ensure_cache_populated, is_cache_filled, hv, hx] at h
      | ok xm =>
        cases frr with
        | none => simp [ensure_cache_populated, is_cache_filled, hv, hx] at h
        | some rr =>
          cases he : populateEntries rr dm0 with
          | error pdm =>
            simp [ensure_cache_populated, is_cache_filled, hv, hx, he] at h
          | ok dm =>
            refine ⟨id_rows, rr, xm, dm, rfl, rfl, hx, he, ?_⟩
            simp only [ensure_cache_populated, is_cache_filled, hv, hx, he] at h
            simp at h
            exact h.symm

/-- Spec clause: before the first observation there is no as-of value. -/
theorem specAsOf_before_first {S : List StoreDateRatePair} {d : Int}
    (hs : DateSorted S) {p : StoreDateRatePair} (hp : S.head? = some p)
    (hd : d < p.1) : specAsOf S d = none := by
  cases S with
  | nil => cases hp
  | cons p0 rest =>
    rw [List.head?_cons] at hp
    injection hp with hp0
    subst hp0
    obtain ⟨hc0, _⟩ := specAsOf_characterization _ d hs
    apply hc0
    apply countLe_eq_zero_of_forall_gt
    intro x hx
    obtain ⟨q, hq, rfl⟩ := List.mem_map.mp hx
    rcases List.mem_cons.mp hq with rfl | hq2
    · exact hd
    · exact lt_trans hd ((List.pairwise_cons.mp hs).1 q hq2)

/-- Spec clause: on or after the last observation, the as-of value is the
last observation's value (forward fill). -/
theorem specAsOf_last {S : List StoreDateRatePair} {d : Int}
    (hs : DateSorted S) {p : StoreDateRatePair} (hp : S.getLast? = some p)
    (hd : p.1 ≤ d) : specAsOf S d = some p.2 := by
  have hne : S ≠ [] := by
    intro h
    rw [h] at hp
    cases hp
  have hp0 : S.getLast hne = p := by
    rw [List.getLast?_eq_getLast_of_ne_nil hne] at hp
    injection hp
  have hall : ∀ q ∈ S, q.1 ≤ d := by
    intro q hq
    obtain ⟨⟨i, hi⟩, rfl⟩ := List.mem_iff_get.mp hq
    have hlen1 : S.length - 1 < S.length := by omega
    have hmapl : S.length - 1 < (S.map Prod.fst).length := by simpa using hlen1
    have hgl : S.get ⟨S.length - 1, hlen1⟩ = S.getLast hne :=
      (List.getLast_eq_getElem S hne).symm
    have hlastv : (S.map Prod.fst).getD (S.length - 1) 0 = p.1 := by
      rw [getD_map_fst S hlen1, hgl, hp0]
    rcases Nat.lt_or_ge i (S.length - 1) with hilt | hige
    · have h1 := sorted_getD_lt (dateSorted_map_fst hs) hilt hmapl
      rw [getD_map_fst S hi, hlastv] at h1
      omega
    · have hieq : i = S.length - 1 := by omega
      subst hieq
      have h2 : (S.get ⟨S.length - 1, hi⟩).1 = p.1 := by
        rw [← getD_map_fst S hi]
        exact hlastv
      omega
  unfold specAsOf
  rw [List.filter_eq_self.mpr (by intro a ha; simpa using hall a ha), hp]

/-- Spec clause: an exact date match yields that sample's value. -/
theorem specAsOf_exact {S : List StoreDateRatePair} {d : Int}
    (hs : DateSorted S) {i : Nat} (hi : i < S.length)
    (he : (S.get ⟨i, hi⟩).1 = d) :
    specAsOf S d = some (S.get ⟨i, hi⟩).2 := by
  have hs1 := dateSorted_map_fst hs
  have hmap : i < (S.map Prod.fst).length := by simpa using hi
  have hgetd : (S.map Prod.fst).getD i 0 = (S.get ⟨i, hi⟩).1 := getD_map_fst S hi
  have hcle : countLe (S.map Prod.fst) d = i + 1 := by
    apply countLe_eq_succ_of_window hs1 hmap
    · intro j hj
      rcases eq_or_lt_of_le hj with rfl | hlt
      · rw [hgetd, he]
      · have h1 := sorted_getD_lt hs1 hlt hmap
        rw [hgetd, he] at h1
        omega
    · intro j hj hjl
      have h1 := sorted_getD_lt hs1 hj hjl
      rw [hgetd, he] at h1
      omega
  obtain ⟨_, hcpos⟩ := specAsOf_characterization S d hs
  rw [hcpos (by omega), hcle]
  have hn : i + 1 - 1 = i := by omega
  rw [hn, List.getElem?_eq_getElem hi]
  rfl

theorem countLe_mono (ds : List Int) {d1 d2 : Int} (h : d1 ≤ d2) :
    countLe ds d1 ≤ countLe ds d2 := by
  induction ds with
  | nil => exact le_refl _
  | cons x l ih =>
    rw [countLe_cons, countLe_cons]
    by_cases hx : x ≤ d1
    · rw [if_pos hx, if_pos (le_trans hx h)]
      omega
    · rw [if_neg hx]
      by_cases hx2 : x ≤ d2
      · rw [if_pos hx2]; omega
      · rw [if_neg hx2]; omega

theorem sorted_getD_le {ds : List Int} (hs : ds.Pairwise (fun a b => a < b))
    {i j : Nat} (hij : i ≤ j) (hj : j < ds.length) :
    ds.getD i 0 ≤ ds.getD j 0 := by
  rcases eq_or_lt_of_le hij with rfl | h
  · exact le_refl _
  · exact le_of_lt (sorted_getD_lt hs h hj)

/-- C8: as-of monotonicity.  For a strictly date-ascending date list and two
query dates `d1 < d2`, whenever the position resolution of
`kq_get_value_from_arrays` (src/src/lib.rs:493-504) resolves both queries to
samples, the sample index for `d2` is at least the one for `d1`, and its
date is no earlier. -/
theorem as_of_monotone (ds : List Int) (d1 d2 : Int) (i1 i2 : Nat)
    (hs : ds.Pairwise (fun a b => a < b)) (h12 : d1 < d2)
    (h1 : lookupPos ds d1 = some i1) (h2 : lookupPos ds d2 = some i2) :
    i1 ≤ i2 ∧ ds.getD i1 0 ≤ ds.getD i2 0 := by
  have hne : ds.length ≠ 0 := by
    intro h0
    rw [List.length_eq_zero] at h0
    subst h0
    simp [lookupPos, binary_search] at h1
  rw [lookupPos_characterization ds d1 hs hne] at h1
  rw [lookupPos_characterization ds d2 hs hne] at h2
  by_cases hc1 : countLe ds d1 = 0
  · rw [if_pos hc1] at h1
    cases h1
  · by_cases hc2 : countLe ds d2 = 0
    · exfalso
      have := countLe_mono ds (le_of_lt h12)
      omega
    · rw [if_neg hc1] at h1
      rw [if_neg hc2] at h2
      injection h1 with h1'
      injection h2 with h2'
      have hmono := countLe_mono ds (le_of_lt h12)
      have hle2 := countLe_le_length ds d2
      have hi12 : i1 ≤ i2 := by omega
      have hj : i2 < ds.length := by omega
      exact ⟨hi12, sorted_getD_le hs hi12 hj⟩

/-- C8 witness at a concrete input. -/
theorem as_of_monotone_witness :
    (1 : Nat) ≤ 2 ∧ ([(0 : Int), 3, 6].getD 1 0 ≤ [(0 : Int), 3, 6].getD 2 0) := by
  have hs : ([(0 : Int), 3, 6]).Pairwise (fun a b => a < b) := by decide
  have h1 : lookupPos [0, 3, 6] 4 = some 1 := by
    rw [lookupPos_characterization [0, 3, 6] 4 hs (by decide)]
    decide
  have h2 : lookupPos [0, 3, 6] 7 = some 2 := by
    rw [lookupPos_characterization [0, 3, 6] 7 hs (by decide)]
    decide
  exact as_of_monotone [0, 3, 6] 4 7 1 2 hs (by decide) h1 h2

/-- C5 counterexample: with an empty `dates` and a non-empty `values` the
sizes differ, yet the call returns the default instead of signalling the
length-mismatch error (`none`): the emptiness short-circuit at
src/src/lib.rs:482-484 runs before the length check. -/
theorem length_mismatch_empty_returns_default :
    ([] : List Int).length ≠ [(1 : Int)].length ∧
    kq_get_value_from_arrays [] [1] 0 (some 0) = some (some 0) ∧
    kq_get_value_from_arrays [] [1] 0 (some 0) ≠ none := by
  refine ⟨by decide, by decide, by decide⟩

/-- C5 (amended): the length-mismatch `error!` fires exactly on the calls
in which both sequences are non-empty and their lengths differ; an empty
`dates` or `values` returns the default first (src/src/lib.rs:482-488).
The failure is the call's own return (`none`), affecting only that call. -/
theorem length_mismatch_error_when_nonempty (dates values : List Int)
    (d : Int) (dv : Option Int) (h1 : dates ≠ []) (h2 : values ≠ [])
    (h3 : dates.length ≠ values.length) :
    kq_get_value_from_arrays dates values d dv = none := by
  have hde : dates.isEmpty = false := by
    cases hq : dates.isEmpty
    · rfl
    · exact absurd (List.isEmpty_iff.mp hq) h1
  have hve : values.isEmpty = false := by
    cases hq : values.isEmpty
    · rfl
    · exact absurd (List.isEmpty_iff.mp hq) h2
  unfold kq_get_value_from_arrays
  rw [hde, hve]
  rw [if_neg (by simp), if_pos h3]

/-- C5 witness at a concrete input. -/
theorem length_mismatch_error_when_nonempty_witness :
    kq_get_value_from_arrays [0] [1, 2] 0 none = none :=
  length_mismatch_error_when_nonempty [0] [1, 2] 0 none (by decide) (by decide)
    (by decide)

/-- C6 (code bug): with the cache empty, a passing validation, a successful
identity feed and a failing rate feed, the population attempt aborts with
`cache_being_filled` left `true` in shared memory — nothing on the `error!`
path resets it — so a subsequent `ensure_cache_populated` call spins forever
in the `is_cache_filled` poll loop instead of being able to retry. -/
theorem population_failure_leaves_flag_set :
    ensure_cache_populated ⟨⟨false, false⟩, [], []⟩ ⟨some true, some [], none⟩ =
      PopOutcome.err ⟨⟨false, true⟩, [], []⟩ ∧
    (⟨false, true⟩ : CurrencyControl).cache_being_filled = true ∧
    ensure_cache_populated ⟨⟨false, true⟩, [], []⟩ ⟨some true, some [], none⟩ =
      PopOutcome.hung := by
  refine ⟨by decide, rfl, by decide⟩

/-- C1 counterexample: on an (artificially) empty stored series the call
panics on `dates_rates.first().unwrap()` (src/src/lib.rs:413) — modelled
`none` — instead of returning `None` (`some none`), so the claim's
"None if S is empty" clause fails on the code. -/
theorem get_rate_panics_on_empty_series :
    kq_fx_get_rate [((1, 2), ([] : List StoreDateRatePair))] 1 2 0 = none ∧
    (none : Option (Option Int)) ≠ some none := by
  refine ⟨rfl, by decide⟩

/-- C1 (amended): as-of lookup contract of `kq_fx_get_rate` for a pair
`(a, b)` with `a ≠ b`: `None` when the pair is absent from the store; for a
stored non-empty strictly date-ascending series `S` the result is the rate
of the latest sample whose date is not later than `d` (`specAsOf`), which
is in particular `None` when `d` is strictly before the first date, the
last sample's rate when `d` is on or after the last date, and the matching
sample's rate on an exact date match, the first sample included.  (On an
empty stored series — never produced by population — the call aborts
instead of returning `None`.) -/
theorem get_rate_as_of_contract (m : CurrencyDataMap) (a b d : Int)
    (hab : a ≠ b) :
    (mapGet m (a, b) = none → kq_fx_get_rate m a b d = some none) ∧
    (∀ S, mapGet m (a, b) = some S → DateSorted S → S ≠ [] →
      kq_fx_get_rate m a b d = some (specAsOf S d) ∧
      (∀ p, S.head? = some p → d < p.1 → specAsOf S d = none) ∧
      (∀ p, S.getLast? = some p → p.1 ≤ d → specAsOf S d = some p.2) ∧
      (∀ i (hi : i < S.length), (S.get ⟨i, hi⟩).1 = d →
        specAsOf S d = some (S.get ⟨i, hi⟩).2)) := by
  constructor
  · intro hnone
    unfold kq_fx_get_rate
    rw [if_neg hab]
    simp only [hnone]
  · intro S hS hsort hneS
    refine ⟨?_, ?_, ?_, ?_⟩
    · unfold kq_fx_get_rate
      rw [if_neg hab]
      simp only [hS]
      exact get_rate_lookup_eq_spec S d hsort hneS
    · intro p hp hd
      exact specAsOf_before_first hsort hp hd
    · intro p hp hd
      exact specAsOf_last hsort hp hd
    · intro i hi he
      exact specAsOf_exact hsort hi he

/-- C1 witness at a concrete input. -/
theorem get_rate_as_of_contract_witness :
    kq_fx_get_rate [((1, 2), [(0, 7), (10, 8)])] 1 2 5 =
      some (specAsOf [(0, 7), (10, 8)] 5) :=
  ((get_rate_as_of_contract [((1, 2), [(0, 7), (10, 8)])] 1 2 5 (by decide)).2
    [(0, 7), (10, 8)] rfl (by decide) (by decide)).1

/-- C2: the three as-of entry points agree.  For any non-empty strictly
date-ascending sample list, the parallel-arrays entry point, the
paired-structures entry point, and the lookup `kq_fx_get_rate` performs
over a store holding the same samples (with implicit default `None` and
`a ≠ b`) return the same value (the standalone forms modulo the `some`
layer that records that they cannot abort on this input). -/
theorem entry_points_agree (S : List StoreDateRatePair) (d : Int)
    (m : CurrencyDataMap) (a b : Int) (hne : S ≠ []) (hs : DateSorted S)
    (hab : a ≠ b) (hm : mapGet m (a, b) = some S) :
    kq_get_value_from_arrays (S.map Prod.fst) (S.map Prod.snd) d none =
      some (kq_get_value_from_custom_type S d none) ∧
    kq_fx_get_rate m a b d = some (kq_get_value_from_custom_type S d none) := by
  constructor
  · exact arrays_eq_custom_type S d none
  · unfold kq_fx_get_rate
    rw [if_neg hab]
    simp only [hm]
    rw [get_rate_lookup_eq_spec S d hs hne, custom_type_eq_spec S d none hs]
    cases hsp : specAsOf S d <;> rfl

/-- C2 witness at a concrete input. -/
theorem entry_points_agree_witness :
    kq_get_value_from_arrays [(0 : Int), 10] [(7 : Int), 8] 5 none =
      some (kq_get_value_from_custom_type [(0, 7), (10, 8)] 5 none) ∧
    kq_fx_get_rate [((1, 2), [(0, 7), (10, 8)])] 1 2 5 =
      some (kq_get_value_from_custom_type [(0, 7), (10, 8)] 5 none) :=
  entry_points_agree [(0, 7), (10, 8)] 5 [((1, 2), [(0, 7), (10, 8)])] 1 2
    (by decide) (by decide) (by decide) rfl

/-- C3 counterexample: a rate feed that delivers a pair's rows out of date
order completes population (the controller is marked Filled) with the
stored series in exactly that unsorted feed order — no sort is performed
anywhere in `ensure_cache_populated`. -/
theorem population_stores_feed_order_unsorted :
    ensure_cache_populated ⟨⟨false, false⟩, [], []⟩
        ⟨some true, some [], some [(1, 2, 5, 10), (1, 2, 3, 20)]⟩ =
      PopOutcome.ok ⟨⟨true, false⟩, [], [((1, 2), [(5, 10), (3, 20)])]⟩ ∧
    ¬ ([((5 : Int), (10 : Int)), (3, 20)].Pairwise (fun x y => x.1 ≤ y.1)) := by
  refine ⟨by decide, by decide⟩

/-- C3 (amended): population performs no sort of its own; it appends each
pair's feed rows in feed order.  Consequently, after a completed run from an
empty store every stored series is in non-decreasing date order exactly when
the feed delivered each pair's rows in non-decreasing date order (which the
default Q3 query's ORDER BY provides); an out-of-order feed is stored
out of order. -/
theorem population_sorted_when_feed_sorted (xm0 : CurrencyXuidMap) (f : Feeds)
    (s' : CacheState)
    (hpop : ensure_cache_populated ⟨⟨false, false⟩, xm0, []⟩ f = PopOutcome.ok s')
    (hrows : ∀ rr, f.rate_rows = some rr →
      ∀ p, (seriesOf rr p).Pairwise (fun x y => x.1 ≤ y.1)) :
    ∀ p l, mapGet s'.data_map p = some l → l.Pairwise (fun x y => x.1 ≤ y.1) := by
  obtain ⟨id_rows, rr, xm, dm, hid, hrr, hx, he, hs'⟩ :=
    ensure_ok_inversion xm0 [] f s' hpop
  subst hs'
  intro p l hl
  have hl2 : mapGet dm p = some l := hl
  have hchar := populateEntries_lookup rr [] dm he p
  rw [mapGet_nil, hl2] at hchar
  have hsa : seriesAfter none (seriesOf rr p) =
      if seriesOf rr p = [] then none else some (seriesOf rr p) := rfl
  rw [hsa] at hchar
  by_cases hes : seriesOf rr p = []
  · rw [if_pos hes] at hchar
    cases hchar
  · rw [if_neg hes] at hchar
    injection hchar with h'
    rw [h']
    exact hrows rr hrr p

/-- C3 witness at a concrete input. -/
theorem population_sorted_when_feed_sorted_witness :
    [((3 : Int), (7 : Int))].Pairwise (fun x y => x.1 ≤ y.1) := by
  have h := population_sorted_when_feed_sorted []
    ⟨some true, some [], some [(1, 2, 3, 7)]⟩
    ⟨⟨true, false⟩, [], [((1, 2), [(3, 7)])]⟩ (by decide) ?_
  · exact h (1, 2) [(3, 7)] rfl
  · intro rr hrr p
    injection hrr with hrr'
    subst hrr'
    by_cases hp : rowKey ((1 : Int), (2 : Int), (3 : Int), (7 : Int)) = p
    · rw [seriesOf_cons_eq [] hp, seriesOf_nil]
      exact List.pairwise_singleton _ _
    · rw [seriesOf_cons_ne [] hp, seriesOf_nil]
      exact List.Pairwise.nil

/-- C4 counterexample: nothing lower-cases xuids (population stores them
verbatim and lookup uses its arguments verbatim), so changing the case of
an argument changes the result: "usd"/"cad" resolves to a rate while
"USD"/"cad" aborts with an unknown-currency error against the same store,
even though "USD" and "usd" differ only in case. -/
theorem xuid_lookup_case_sensitive :
    kq_fx_get_rate_xuid [("usd", 1), ("cad", 2)] [((1, 2), [(0, 5)])]
        "usd" "cad" 0 = some (some 5) ∧
    kq_fx_get_rate_xuid [("usd", 1), ("cad", 2)] [((1, 2), [(0, 5)])]
        "USD" "cad" 0 = none ∧
    ("USD".data.map Char.toLower = "usd".data) := by
  refine ⟨by decide, by decide, by decide⟩

/-- C4 (amended): population inserts each textual currency identifier into
the xuid index verbatim (no lower-casing), and xuid lookup resolves its
arguments verbatim: when the two (distinct, capacity-respecting) strings
are present byte-for-byte in the index, `kq_fx_get_rate_xuid` delegates to
`kq_fx_get_rate` on the mapped ids.  Results are therefore invariant only
under changes that leave the byte strings intact; a case change that
removes an argument from the index changes the result. -/
theorem xuid_verbatim_delegation (xm : CurrencyXuidMap) (dm : CurrencyDataMap)
    (s t : String) (a b d : Int)
    (hs16 : s.utf8ByteSize ≤ 16) (ht16 : t.utf8ByteSize ≤ 16) (hst : s ≠ t)
    (ha : mapGet xm s = some a) (hb : mapGet xm t = some b) :
    kq_fx_get_rate_xuid xm dm s t d = kq_fx_get_rate dm a b d ∧
    (∀ (i : Int) (x : String), x.utf8ByteSize ≤ 16 →
      insertXuidRow [] (i, x) = some [(x, i)]) := by
  have hcs : currencyXuidFrom s = some s := by
    unfold currencyXuidFrom
    rw [if_pos hs16]
  have hct : currencyXuidFrom t = some t := by
    unfold currencyXuidFrom
    rw [if_pos ht16]
  constructor
  · unfold kq_fx_get_rate_xuid
    simp only [hcs, hct]
    rw [if_neg hst]
    simp only [ha, hb]
  · intro i x hx
    have hcx : currencyXuidFrom x = some x := by
      unfold currencyXuidFrom
      rw [if_pos hx]
    unfold insertXuidRow
    simp only [hcx]
    unfold mapInsert
    simp [mapGet_nil, MAX_CURRENCIES]

/-- C4 witness at a concrete input. -/
theorem xuid_verbatim_delegation_witness :
    kq_fx_get_rate_xuid [("usd", 1), ("cad", 2)] [] "usd" "cad" 3 =
      kq_fx_get_rate [] 1 2 3 :=
  (xuid_verbatim_delegation [("usd", 1), ("cad", 2)] [] "usd" "cad" 1 2 3
    (by decide) (by decide) (by decide) (by decide) (by decide)).1

/-- C7 counterexample: "USD" and "usd" are equal after lower-casing, yet
the code compares the raw strings (no normalization exists), misses the
identity short-circuit, and aborts on the unknown xuid instead of
returning `Some(1.0)`. -/
theorem xuid_identity_not_case_normalized :
    ("USD".data.map Char.toLower = "usd".data.map Char.toLower) ∧
    kq_fx_get_rate_xuid [] [] "USD" "usd" 0 = none ∧
    kq_fx_get_rate_xuid [] [] "USD" "usd" 0 ≠ some (some 1) := by
  refine ⟨by decide, by decide, by decide⟩

/-- C7 (amended): `kq_fx_get_rate(X, X, d)` returns `Some(1.0)` for every
id `X` and every date, against every store — `X` need not exist in it and
the store is never consulted; `kq_fx_get_rate_xuid` likewise returns
`Some(1.0)` for byte-identical (capacity-respecting) xuid arguments without
touching either map.  (No case normalization exists: byte equality, not
equality after lower-casing, triggers the short-circuit.) -/
theorem identity_short_circuit (m : CurrencyDataMap) (xm : CurrencyXuidMap)
    (x d : Int) (s : String) (hs16 : s.utf8ByteSize ≤ 16) :
    kq_fx_get_rate m x x d = some (some 1) ∧
    kq_fx_get_rate_xuid xm m s s d = some (some 1) := by
  constructor
  · unfold kq_fx_get_rate
    rw [if_pos rfl]
  · have hcs : currencyXuidFrom s = some s := by
      unfold currencyXuidFrom
      rw [if_pos hs16]
    unfold kq_fx_get_rate_xuid
    simp only [hcs]
    simp

/-- C7 witness at a concrete input. -/
theorem identity_short_circuit_witness :
    kq_fx_get_rate [] 42 42 0 = some (some 1) ∧
    kq_fx_get_rate_xuid [] [] "usd" "usd" 0 = some (some 1) :=
  identity_short_circuit [] [] 42 0 "usd" (by decide)

/-- C10: every series present in the rate store stays non-empty across the
operations — each series-phase step creates an entry only together with its
first sample and otherwise only appends; invalidation leaves no entries at
all — and on any store satisfying the invariant `kq_fx_get_rate` never
panics (its `first()/last()` unwraps and its indexings always succeed). -/
theorem stored_series_nonempty_invariant :
    (∀ m r m2, insertRateRow m r = some m2 → AllSeriesNonempty m →
      AllSeriesNonempty m2) ∧
    (∀ s, (kq_fx_invalidate_cache s).data_map = []) ∧
    (∀ m a b d, AllSeriesNonempty m → kq_fx_get_rate m a b d ≠ none) := by
  refine ⟨?_, ?_, ?_⟩
  · intro m r m2 h hm
    exact insertRateRow_nonempty h hm
  · intro s
    rfl
  · intro m a b d hm
    unfold kq_fx_get_rate
    by_cases hab : a = b
    · rw [if_pos hab]
      simp
    · rw [if_neg hab]
      cases hg : mapGet m (a, b) with
      | none => simp
      | some S =>
        show kq_fx_get_rate_lookup S d ≠ none
        exact get_rate_lookup_ne_none S d (hm (a, b) S hg)

/-- C10 witness at a concrete input. -/
theorem stored_series_nonempty_invariant_witness :
    kq_fx_get_rate [((1, 2), [(0, 7)])] 1 2 9 ≠ none := by
  refine stored_series_nonempty_invariant.2.2 [((1, 2), [(0, 7)])] 1 2 9 ?_
  intro p l hl
  rw [mapGet_cons] at hl
  by_cases hp : ((1 : Int), (2 : Int)) = p
  · rw [if_pos hp] at hl
    injection hl with h'
    rw [← h']
    simp
  · rw [if_neg hp, mapGet_nil] at hl
    cases hl

end KqFx
